import Mathlib

/-!
Verification of the trade-ops reconciliation platform.

Shallow embedding of the data model and operations of the repository:
trade generation and broker corruption (`src/generate_data.py`), the
position/cash aggregators (`generate_data.py`), the reconciliation drivers
(`reconcile_trades.py`, `reconcile_positions_cash.py`, `calculate_pnl.py`),
and the audit logging of pipeline runs.  Monetary values (price, fees,
principal) are embedded as rationals; quantities as integers; dates as
strings in the `YYYY-MM-DD` form the scripts pass around.

The matching-and-classification logic and the PnL grouping live in SQL
files (`sql/recon_trades.sql`, `sql/pnl_calculation.sql`) that are not part
of the reviewed sources; those two engines are modelled from the spec and
are marked as such in their doc comments.
-/

/-- Trade side, from `generate_data.py` (`np.random.choice(['BUY', 'SELL'])`). -/
inductive Side where
  | BUY
  | SELL
deriving DecidableEq

/-- A trade record with the columns built in `generate_internal_trades`
(`generate_data.py` lines 48-68). -/
structure Trade where
  trade_id : String
  trade_date : String
  settlement_date : String
  symbol : String
  account : String
  strategy : String
  venue : String
  side : Side
  quantity : Int
  price : ℚ
  fees : ℚ
  currency : String
  principal : ℚ
deriving DecidableEq

/-- The principal lambda of `generate_data.py` lines 66-68 and 109-111:
`-1 * ((quantity * price) + fees)` for BUY, `(quantity * price) - fees`
otherwise. -/
def computePrincipal (side : Side) (quantity : Int) (price fees : ℚ) : ℚ :=
  if side = Side.BUY then -1 * (((quantity : ℚ) * price) + fees)
  else ((quantity : ℚ) * price) - fees

/-- Assignment of the `principal` column to a row, as both
`generate_internal_trades` and `corrupt_broker_data` do. -/
def withPrincipal (t : Trade) : Trade :=
  { t with principal := computePrincipal t.side t.quantity t.price t.fees }

/-- `generate_internal_trades` (`generate_data.py` lines 33-69): rows are
built from (randomly chosen) field values, then the `principal` column is
computed for every row.  The embedding takes the pre-principal rows as
input in place of the random draws. -/
def generateInternalTrades (raw : List Trade) : List Trade :=
  raw.map withPrincipal

/-- `corrupt_broker_data` (`generate_data.py` lines 71-112): perturb fields
of a copy of the internal rows, drop some rows, append phantom rows, then
recompute the `principal` column for every remaining row.  The random
perturbation, the drop choice and the phantom rows are parameters. -/
def corruptBrokerData (perturb : Trade → Trade) (keep : Trade → Bool)
    (phantoms : List Trade) (internal : List Trade) : List Trade :=
  (((internal.map perturb).filter keep) ++ phantoms).map withPrincipal

/-- The `signed_qty` lambda of `aggregate_positions` (`generate_data.py`
line 116): `quantity` for BUY, `-quantity` otherwise. -/
def signedQty (t : Trade) : Int :=
  if t.side = Side.BUY then t.quantity else -t.quantity

/-- Grouped sum, the embedding of `df.groupby(keys)[col].sum()`: one output
pair per distinct key present in the input, carrying the sum of the value
over the rows of that group. -/
def groupSum {α κ M : Type} [DecidableEq κ] [AddCommMonoid M]
    (key : α → κ) (val : α → M) (ts : List α) : List (κ × M) :=
  ((ts.map key).dedup).map
    (fun k => (k, ((ts.filter (fun t => key t = k)).map val).sum))

/-- Grouped sum over already-projected (key, value) pairs; used to show the
aggregators depend only on the projected columns of their input. -/
def gPairs {κ M : Type} [DecidableEq κ] [AddCommMonoid M]
    (pl : List (κ × M)) : List (κ × M) :=
  ((pl.map Prod.fst).dedup).map
    (fun k => (k, ((pl.filter (fun p => p.1 = k)).map Prod.snd).sum))

/-- Projection of rows to (key, value) pairs. -/
def pairsOf {α κ M : Type} (key : α → κ) (val : α → M) (ts : List α) :
    List (κ × M) :=
  ts.map (fun t => (key t, val t))

/-- A row of the position snapshot produced by `aggregate_positions`. -/
structure PositionRow where
  account : String
  symbol : String
  net_position : Int
  position_date : String
deriving DecidableEq

/-- `aggregate_positions` (`generate_data.py` lines 114-121): group by
(account, symbol), sum the signed quantity, stamp the target date. -/
def aggregatePositions (ts : List Trade) (target_date : String) :
    List PositionRow :=
  (groupSum (fun t => (t.account, t.symbol)) signedQty ts).map
    (fun kv =>
      { account := kv.1.1, symbol := kv.1.2, net_position := kv.2,
        position_date := target_date })

/-- A row of the cash snapshot produced by `aggregate_cash`. -/
structure CashRow where
  account : String
  currency : String
  net_cash_balance : ℚ
  cash_date : String
deriving DecidableEq

/-- `aggregate_cash` (`generate_data.py` lines 123-128): group by
(account, currency), sum `principal`, stamp the target date. -/
def aggregateCash (ts : List Trade) (target_date : String) : List CashRow :=
  (groupSum (fun t => (t.account, t.currency)) Trade.principal ts).map
    (fun kv =>
      { account := kv.1.1, currency := kv.1.2, net_cash_balance := kv.2,
        cash_date := target_date })

/-- A PnL output row, per the spec's `PnlRecord` (§3). -/
structure PnlRecord where
  pnl_date : String
  strategy : String
  symbol : String
  account : String
  trade_count : Nat
  realized_pnl : ℚ
  fees_total : ℚ
  net_pnl : ℚ
deriving DecidableEq

/-- Modelled from the spec: the PnL grouping of `sql/pnl_calculation.sql` is
not among the reviewed sources (only its driver `calculate_pnl.py` is).
Per spec §4.4: restrict the internal trades to the date, group by
(strategy, symbol, account); `realized_pnl` is the sum of `principal`,
`fees_total` the sum of `fees`, `trade_count` the row count, and
`net_pnl = realized_pnl - fees_total`. -/
def calculatePnl (d : String) (ts : List Trade) : List PnlRecord :=
  (groupSum (fun t => (t.strategy, t.symbol, t.account))
      (fun t => (t.principal, t.fees, (1 : Nat)))
      (ts.filter (fun t => t.trade_date = d))).map
    (fun kv =>
      { pnl_date := d, strategy := kv.1.1, symbol := kv.1.2.1,
        account := kv.1.2.2, trade_count := kv.2.2.2,
        realized_pnl := kv.2.1, fees_total := kv.2.2.1,
        net_pnl := kv.2.1 - kv.2.2.1 })

/-- Break severity levels, per spec §4.1. -/
inductive Severity where
  | LOW
  | MEDIUM
  | HIGH
  | CRITICAL
deriving DecidableEq

/-- Numeric rank of a severity, used for the ordering. -/
def sevRank : Severity → Nat
  | Severity.LOW => 0
  | Severity.MEDIUM => 1
  | Severity.HIGH => 2
  | Severity.CRITICAL => 3

/-- Severity ordering. -/
def sevLE (a b : Severity) : Prop := sevRank a ≤ sevRank b

instance (a b : Severity) : Decidable (sevLE a b) :=
  inferInstanceAs (Decidable (sevRank a ≤ sevRank b))

/-- The larger of two severities. -/
def maxSev (a b : Severity) : Severity :=
  if sevRank a ≤ sevRank b then b else a

/-- Break taxonomy of the Matching Engine, per spec §4.1. -/
inductive BreakType where
  | MISSING_AT_COUNTERPARTY
  | PHANTOM_AT_COUNTERPARTY
  | PRICE_MISMATCH
  | QUANTITY_MISMATCH
  | FEE_MISMATCH
  | SETTLEMENT_DATE_MISMATCH
deriving DecidableEq

/-- A row of the `recon_trades` break table, per the spec's `TradeBreak`. -/
structure TradeBreak where
  recon_date : String
  trade_id : String
  symbol : String
  account : String
  break_type : BreakType
  severity : Severity
  internal_value : Option ℚ
  broker_value : Option ℚ
  notional_impact : ℚ
  resolved : Bool
deriving DecidableEq

/-- Modelled from the spec: default severity banding of §4.1 (CRITICAL at
10000, HIGH at 1000, MEDIUM at 100, else LOW); the concrete thresholds live
in `sql/recon_trades.sql`, which is not among the reviewed sources. -/
def defaultSeverityBand (n : ℚ) : Severity :=
  if 10000 ≤ n then Severity.CRITICAL
  else if 1000 ≤ n then Severity.HIGH
  else if 100 ≤ n then Severity.MEDIUM
  else Severity.LOW

/-- Modelled from the spec: the MISSING_AT_COUNTERPARTY break of §4.1 for a
trade present only internally: internal value is the principal, broker value
null, notional impact `|principal|`, severity banded but floored at HIGH. -/
def mkMissingBreak (band : ℚ → Severity) (d : String) (t : Trade) :
    TradeBreak :=
  { recon_date := d, trade_id := t.trade_id, symbol := t.symbol,
    account := t.account, break_type := BreakType.MISSING_AT_COUNTERPARTY,
    severity := maxSev (band |t.principal|) Severity.HIGH,
    internal_value := some t.principal, broker_value := none,
    notional_impact := |t.principal|, resolved := false }

/-- Modelled from the spec: the PHANTOM_AT_COUNTERPARTY break of §4.1 for a
trade present only at the counterparty. -/
def mkPhantomBreak (band : ℚ → Severity) (d : String) (t : Trade) :
    TradeBreak :=
  { recon_date := d, trade_id := t.trade_id, symbol := t.symbol,
    account := t.account, break_type := BreakType.PHANTOM_AT_COUNTERPARTY,
    severity := maxSev (band |t.principal|) Severity.HIGH,
    internal_value := none, broker_value := some t.principal,
    notional_impact := |t.principal|, resolved := false }

/-- Modelled from the spec: the field-by-field comparison of §4.1 for a
trade_id present on both sides; each of price, quantity, fees and
settlement date is compared independently and may emit its own break. -/
def pairBreaks (band : ℚ → Severity) (tol : ℚ) (d : String) (t b : Trade) :
    List TradeBreak :=
  (if tol < |t.price - b.price| then
    [{ recon_date := d, trade_id := t.trade_id, symbol := t.symbol,
       account := t.account, break_type := BreakType.PRICE_MISMATCH,
       severity := band |t.principal - b.principal|,
       internal_value := some t.price, broker_value := some b.price,
       notional_impact := |t.principal - b.principal|, resolved := false }]
  else []) ++
  (if t.quantity ≠ b.quantity then
    [{ recon_date := d, trade_id := t.trade_id, symbol := t.symbol,
       account := t.account, break_type := BreakType.QUANTITY_MISMATCH,
       severity := band |t.principal - b.principal|,
       internal_value := some (t.quantity : ℚ),
       broker_value := some (b.quantity : ℚ),
       notional_impact := |t.principal - b.principal|, resolved := false }]
  else []) ++
  (if tol < |t.fees - b.fees| then
    [{ recon_date := d, trade_id := t.trade_id, symbol := t.symbol,
       account := t.account, break_type := BreakType.FEE_MISMATCH,
       severity := band |t.fees - b.fees|,
       internal_value := some t.fees, broker_value := some b.fees,
       notional_impact := |t.fees - b.fees|, resolved := false }]
  else []) ++
  (if t.settlement_date ≠ b.settlement_date then
    [{ recon_date := d, trade_id := t.trade_id, symbol := t.symbol,
       account := t.account,
       break_type := BreakType.SETTLEMENT_DATE_MISMATCH,
       severity := band 0, internal_value := none, broker_value := none,
       notional_impact := 0, resolved := false }]
  else [])

/-- Membership of a trade id in a trade set. -/
def hasId (ts : List Trade) (tid : String) : Bool :=
  ts.any (fun t => t.trade_id = tid)

/-- First trade with the given id, the join partner lookup. -/
def findById (ts : List Trade) (tid : String) : Option Trade :=
  ts.find? (fun t => t.trade_id = tid)

/-- Modelled from the spec: the Matching Engine of §4.1 (the SQL text of
`sql/recon_trades.sql` is not among the reviewed sources).  Full outer join
on trade_id: trades only internal give MISSING breaks, trades only at the
counterparty give PHANTOM breaks, and matched pairs are compared
field-by-field. -/
def computeTradeBreaks (band : ℚ → Severity) (tol : ℚ) (d : String)
    (internal broker : List Trade) : List TradeBreak :=
  ((internal.filter (fun t => ! hasId broker t.trade_id)).map
      (mkMissingBreak band d)) ++
  ((broker.filter (fun t => ! hasId internal t.trade_id)).map
      (mkPhantomBreak band d)) ++
  (internal.flatMap (fun t =>
    match findById broker t.trade_id with
    | some b => pairBreaks band tol d t b
    | none => []))

/-- Modelled from the spec: one run of the Matching Engine for a date with
the delete-then-insert replace semantics of §4.5 applied to the break
table: rows of the date are deleted, freshly computed rows inserted. -/
def matchingEngineRun (band : ℚ → Severity) (tol : ℚ) (d : String)
    (internal broker : List Trade) (table : List TradeBreak) :
    List TradeBreak :=
  (table.filter (fun r => r.recon_date ≠ d)) ++
    computeTradeBreaks band tol d internal broker

/-- Sequential execution of the statements of a write phase, as the loop in
`run_recon` (`reconcile_trades.py` lines 33-58) does: each statement either
yields a new store state or fails, and a failure is re-raised, aborting
the remaining statements. -/
def applyStmts {σ : Type} : List (σ → Option σ) → σ → Option σ
  | [], s => some s
  | stmt :: rest, s =>
    match stmt s with
    | some s' => applyStmts rest s'
    | none => none

/-- The `engine.begin()` transactional wrapper of the three drivers: on
success the staged state is committed, on any statement failure the unit
rolls back and the prior state is kept.  The second component reports
whether the transaction committed. -/
def runTransaction {σ : Type} (stmts : List (σ → Option σ)) (s : σ) :
    σ × Bool :=
  match applyStmts stmts s with
  | some s' => (s', true)
  | none => (s, false)

/-- Pipeline run status, from the `status` column of `pipeline_runs`. -/
inductive RunStatus where
  | SUCCESS
  | FAILED
deriving DecidableEq

/-- A row of the `pipeline_runs` audit table (timestamps and duration are
elided; they do not bear on any claim). -/
structure PipelineRunRow where
  run_date : String
  pipeline_name : String
  status : RunStatus
  breaks_found : Nat
  error_message : Option String
deriving DecidableEq

/-- `log_pipeline_run` (`reconcile_trades.py` lines 111-134): INSERT of one
row into the append-only `pipeline_runs` table. -/
def logPipelineRun (audit : List PipelineRunRow) (pname d : String)
    (status : RunStatus) (breaks : Nat) (error : Option String) :
    List PipelineRunRow :=
  audit ++ [{ run_date := d, pipeline_name := pname, status := status,
              breaks_found := breaks, error_message := error }]

/-- `main` of `reconcile_trades.py` (lines 136-168), observed through the
audit table and the process exit code: a successful run logs one SUCCESS
row carrying the break count and exits 0; a failed run logs one FAILED row
carrying the error message (with `breaks` left at its default 0) and calls
`sys.exit(1)`.  The run outcome is the `result` parameter; the audit
insert itself is taken to succeed. -/
def reconMain (d : String) (result : Except String Nat)
    (audit : List PipelineRunRow) : List PipelineRunRow × Nat :=
  match result with
  | Except.ok breaks =>
    (logPipelineRun audit "trade_reconciliation" d RunStatus.SUCCESS
      breaks none, 0)
  | Except.error e =>
    (logPipelineRun audit "trade_reconciliation" d RunStatus.FAILED 0
      (some e), 1)

/-- A sample BUY trade (spec §8 scenario: BUY 100 AAPL at 10.00, fee 1.00,
principal -1001.00), used as a concrete evaluation point. -/
def sampleBuy : Trade :=
  { trade_id := "TRD_0000001", trade_date := "2024-01-02",
    settlement_date := "2024-01-03", symbol := "AAPL",
    account := "ACCT_MAIN", strategy := "MarketMaking", venue := "NASDAQ",
    side := Side.BUY, quantity := 100, price := 10, fees := 1,
    currency := "USD", principal := -1001 }

/-- A member of an if-guarded singleton is that element. -/
theorem mem_ite_singleton {α : Type} {c : Prop} [Decidable c] {x r : α}
    (h : r ∈ (if c then [x] else ([] : List α))) : r = x := by
  by_cases hc : c
  · simp [hc] at h
    exact h
  · simp [hc] at h

/-- Filtering a duplicate-free list by a predicate that exactly one member
satisfies yields that member alone. -/
theorem filter_eq_singleton_of_nodup {α : Type} {p : α → Bool}
    {l : List α} {t : α} (hl : l.Nodup) (ht : t ∈ l) (hpt : p t = true)
    (huniq : ∀ u ∈ l, p u = true → u = t) : l.filter p = [t] := by
  induction l with
  | nil => cases ht
  | cons a rest ih =>
    rcases List.nodup_cons.mp hl with ⟨hanotin, hrest⟩
    by_cases hpa : p a = true
    · have hat : a = t := huniq a (List.mem_cons_self a rest) hpa
      subst hat
      have hrestnil : rest.filter p = [] := by
        apply List.filter_eq_nil_iff.mpr
        intro u hu hpu
        have huA : u = a := huniq u (List.mem_cons_of_mem a hu) hpu
        subst huA
        exact hanotin hu
      simp [List.filter_cons, hpa, hrestnil]
    · have hat : a ≠ t := fun h => hpa (h ▸ hpt)
      have htr : t ∈ rest := by
        rcases List.mem_cons.mp ht with h | h
        · exact absurd h.symm hat
        · exact h
      have hres := ih hrest htr
        (fun u hu hpu => huniq u (List.mem_cons_of_mem a hu) hpu)
      simp [List.filter_cons, hpa, hres]

/-- Summing group totals over a duplicate-free list of keys covering every
row recovers the total over all rows: the groups partition the input. -/
theorem sum_over_groups {α κ M : Type} [DecidableEq κ] [AddCommMonoid M]
    (key : α → κ) (val : α → M) :
    ∀ (ks : List κ) (ts : List α), ks.Nodup → (∀ t ∈ ts, key t ∈ ks) →
      (ks.map (fun k => ((ts.filter (fun t => key t = k)).map val).sum)).sum
        = (ts.map val).sum := by
  intro ks
  induction ks with
  | nil =>
    intro ts _ hcov
    have hts : ts = [] := by
      cases ts with
      | nil => rfl
      | cons a l => exact absurd (hcov a (List.mem_cons_self a l)) (by simp)
    subst hts
    simp
  | cons k rest ih =>
    intro ts hnd hcov
    rcases List.nodup_cons.mp hnd with ⟨hknotin, hndr⟩
    have hperm : List.Perm ((ts.filter (fun t => key t = k)) ++
        (ts.filter (fun t => ! decide (key t = k)))) ts :=
      List.filter_append_perm _ ts
    have hsplit : ((ts.filter (fun t => key t = k)).map val).sum
        + ((ts.filter (fun t => ! decide (key t = k))).map val).sum
        = (ts.map val).sum := by
      have hs := (hperm.map val).sum_eq
      simpa [List.map_append, List.sum_append] using hs
    have hcov₂ : ∀ t ∈ ts.filter (fun t => ! decide (key t = k)),
        key t ∈ rest := by
      intro t ht
      have htmem := List.mem_filter.mp ht
      have h1 : key t ∈ k :: rest := hcov t htmem.1
      have h2 : ¬ (key t = k) := by simpa using htmem.2
      rcases List.mem_cons.mp h1 with h | h
      · exact absurd h h2
      · exact h
    have hrest : ∀ k' ∈ rest, ts.filter (fun t => key t = k')
        = (ts.filter (fun t => ! decide (key t = k))).filter
            (fun t => key t = k') := by
      intro k' hk'
      have hkk' : k ≠ k' := fun h => hknotin (h ▸ hk')
      rw [List.filter_filter]
      apply List.filter_congr
      intro t _
      by_cases h : key t = k'
      · have hnk : ¬ (key t = k) := fun hh => hkk' (hh.symm.trans h)
        simp [h, hnk]
        exact fun hh => hkk' hh.symm
      · simp [h]
    calc ((k :: rest).map
          (fun k' => ((ts.filter (fun t => key t = k')).map val).sum)).sum
        = ((ts.filter (fun t => key t = k)).map val).sum
          + ((rest.map
              (fun k' => ((ts.filter (fun t => key t = k')).map val).sum)).sum) := by
          simp
      _ = ((ts.filter (fun t => key t = k)).map val).sum
          + ((rest.map (fun k' =>
              (((ts.filter (fun t => ! decide (key t = k))).filter
                  (fun t => key t = k')).map val).sum)).sum) := by
          have hmapeq : rest.map
              (fun k' => ((ts.filter (fun t => key t = k')).map val).sum)
              = rest.map (fun k' =>
                (((ts.filter (fun t => ! decide (key t = k))).filter
                    (fun t => key t = k')).map val).sum) := by
            apply List.map_congr_left
            intro k' hk'
            rw [hrest k' hk']
          rw [hmapeq]
      _ = ((ts.filter (fun t => key t = k)).map val).sum
          + ((ts.filter (fun t => ! decide (key t = k))).map val).sum := by
          rw [ih (ts.filter (fun t => ! decide (key t = k))) hndr hcov₂]
      _ = (ts.map val).sum := hsplit

/-- The grouped sum has one row per key present in the input: filtering the
rows to a present key yields exactly the row carrying that group's sum. -/
theorem groupSum_filter_key {α κ M : Type} [DecidableEq κ] [AddCommMonoid M]
    (key : α → κ) (val : α → M) (ts : List α) (k : κ)
    (hk : ∃ t ∈ ts, key t = k) :
    (groupSum key val ts).filter (fun p => p.1 = k)
      = [(k, ((ts.filter (fun t => key t = k)).map val).sum)] := by
  have hmem : k ∈ (ts.map key).dedup := by
    rcases hk with ⟨t, ht, hkey⟩
    exact List.mem_dedup.mpr (hkey ▸ List.mem_map_of_mem key ht)
  unfold groupSum
  rw [List.filter_map]
  have hpred : ((fun p : κ × M => decide (p.1 = k)) ∘
      (fun k' => (k', ((ts.filter (fun t => key t = k')).map val).sum)))
      = fun k' => decide (k' = k) := rfl
  rw [hpred]
  rw [filter_eq_singleton_of_nodup (List.nodup_dedup _) hmem (by simp)
    (fun u _ hu => by simpa using hu)]
  rfl

/-- Every row of the grouped sum comes from a key present in the input and
carries that group's sum. -/
theorem groupSum_mem {α κ M : Type} [DecidableEq κ] [AddCommMonoid M]
    (key : α → κ) (val : α → M) (ts : List α) (p : κ × M)
    (hp : p ∈ groupSum key val ts) :
    (∃ t ∈ ts, key t = p.1) ∧
    p.2 = ((ts.filter (fun t => key t = p.1)).map val).sum := by
  unfold groupSum at hp
  rcases List.mem_map.mp hp with ⟨k, hk, hpk⟩
  have hk' : k ∈ ts.map key := List.mem_dedup.mp hk
  rcases List.mem_map.mp hk' with ⟨t, ht, hkey⟩
  constructor
  · exact ⟨t, ht, by rw [hkey, ← hpk]⟩
  · rw [← hpk]

/-- Grouped aggregation conserves the total: the sum of the group sums is
the sum over the whole input. -/
theorem groupSum_conservation {α κ M : Type} [DecidableEq κ]
    [AddCommMonoid M] (key : α → κ) (val : α → M) (ts : List α) :
    ((groupSum key val ts).map Prod.snd).sum = (ts.map val).sum := by
  unfold groupSum
  rw [List.map_map]
  exact sum_over_groups key val ((ts.map key).dedup) ts
    (List.nodup_dedup _)
    (fun t ht => List.mem_dedup.mpr (List.mem_map_of_mem key ht))

/-- The grouped sum factors through the (key, value) projection of the
input rows. -/
theorem groupSum_eq_gPairs {α κ M : Type} [DecidableEq κ] [AddCommMonoid M]
    (key : α → κ) (val : α → M) (ts : List α) :
    groupSum key val ts = gPairs (pairsOf key val ts) := by
  have hkeys : ((pairsOf key val ts).map Prod.fst) = ts.map key := by
    simp [pairsOf, List.map_map, Function.comp]
  unfold groupSum gPairs
  rw [hkeys]
  apply List.map_congr_left
  intro k _
  have hrow : ((pairsOf key val ts).filter (fun p => p.1 = k)).map Prod.snd
      = (ts.filter (fun t => key t = k)).map val := by
    unfold pairsOf
    rw [List.filter_map, List.map_map]
    rfl
  rw [hrow]

/-- Two inputs with identical (key, value) projections have identical
grouped sums. -/
theorem groupSum_eq_of_pairs {α β κ M : Type} [DecidableEq κ]
    [AddCommMonoid M] (key₁ : α → κ) (val₁ : α → M) (key₂ : β → κ)
    (val₂ : β → M) (ts₁ : List α) (ts₂ : List β)
    (h : pairsOf key₁ val₁ ts₁ = pairsOf key₂ val₂ ts₂) :
    groupSum key₁ val₁ ts₁ = groupSum key₂ val₂ ts₂ := by
  rw [groupSum_eq_gPairs, groupSum_eq_gPairs, h]

/-- Every field-mismatch break for a matched pair carries the internal
trade's id. -/
theorem pairBreaks_id (band : ℚ → Severity) (tol : ℚ) (d : String)
    (t b : Trade) :
    ∀ r ∈ pairBreaks band tol d t b, r.trade_id = t.trade_id := by
  intro r hr
  unfold pairBreaks at hr
  rcases List.mem_append.mp hr with hr | hr
  · rcases List.mem_append.mp hr with hr | hr
    · rcases List.mem_append.mp hr with hr | hr
      · rw [mem_ite_singleton hr]
      · rw [mem_ite_singleton hr]
    · rw [mem_ite_singleton hr]
  · rw [mem_ite_singleton hr]

/-- Every field-mismatch break for a matched pair carries the recon date. -/
theorem pairBreaks_date (band : ℚ → Severity) (tol : ℚ) (d : String)
    (t b : Trade) :
    ∀ r ∈ pairBreaks band tol d t b, r.recon_date = d := by
  intro r hr
  unfold pairBreaks at hr
  rcases List.mem_append.mp hr with hr | hr
  · rcases List.mem_append.mp hr with hr | hr
    · rcases List.mem_append.mp hr with hr | hr
      · rw [mem_ite_singleton hr]
      · rw [mem_ite_singleton hr]
    · rw [mem_ite_singleton hr]
  · rw [mem_ite_singleton hr]

/-- Every break emitted by the matching engine for date `d` is stamped with
recon date `d`. -/
theorem computeTradeBreaks_date (band : ℚ → Severity) (tol : ℚ) (d : String)
    (internal broker : List Trade) :
    ∀ r ∈ computeTradeBreaks band tol d internal broker,
      r.recon_date = d := by
  intro r hr
  unfold computeTradeBreaks at hr
  rcases List.mem_append.mp hr with hr | hr
  · rcases List.mem_append.mp hr with hr | hr
    · rcases List.mem_map.mp hr with ⟨t, _, hrt⟩
      rw [← hrt]
      rfl
    · rcases List.mem_map.mp hr with ⟨t, _, hrt⟩
      rw [← hrt]
      rfl
  · rcases List.mem_flatMap.mp hr with ⟨t, _, hrt⟩
    cases hfind : findById broker t.trade_id with
    | none => rw [hfind] at hrt; cases hrt
    | some b =>
      rw [hfind] at hrt
      exact pairBreaks_date band tol d t b r hrt

/-- The MISSING/PHANTOM severity floor: banding combined with the HIGH
floor is always at least HIGH. -/
theorem sevLE_high_floor (s : Severity) :
    sevLE Severity.HIGH (maxSev s Severity.HIGH) := by
  cases s <;> decide

/-- First components add up componentwise under list sum. -/
theorem sum_fst_rat (l : List (ℚ × ℚ × ℕ)) :
    (l.map (fun x => x.1)).sum = l.sum.1 := by
  induction l with
  | nil => simp
  | cons a rest ih => simp [ih]

/-- Middle components add up componentwise under list sum. -/
theorem sum_snd_fst_rat (l : List (ℚ × ℚ × ℕ)) :
    (l.map (fun x => x.2.1)).sum = l.sum.2.1 := by
  induction l with
  | nil => simp
  | cons a rest ih => simp [ih]

/-- A sum of differences splits into a difference of sums. -/
theorem sum_map_sub_rat {α : Type} (f g : α → ℚ) (l : List α) :
    (l.map (fun x => f x - g x)).sum = (l.map f).sum - (l.map g).sum := by
  induction l with
  | nil => simp
  | cons a rest ih =>
    simp [ih]
    ring

/-- Realized-PnL component: summing the first value component of the
grouped triples recovers the plain sum of that column. -/
theorem groupSum_sum_fst {α κ : Type} [DecidableEq κ] (key : α → κ)
    (f g : α → ℚ) (cnt : α → ℕ) (l : List α) :
    ((groupSum key (fun t => (f t, g t, cnt t)) l).map
        (fun kv => kv.2.1)).sum = (l.map f).sum := by
  have hm : (groupSum key (fun t => (f t, g t, cnt t)) l).map
        (fun kv => kv.2.1)
      = ((groupSum key (fun t => (f t, g t, cnt t)) l).map Prod.snd).map
          (fun x => x.1) := by
    rw [List.map_map]
    rfl
  rw [hm, sum_fst_rat, groupSum_conservation, ← sum_fst_rat, List.map_map]
  rfl

/-- Fees component: summing the middle value component of the grouped
triples recovers the plain sum of that column. -/
theorem groupSum_sum_snd {α κ : Type} [DecidableEq κ] (key : α → κ)
    (f g : α → ℚ) (cnt : α → ℕ) (l : List α) :
    ((groupSum key (fun t => (f t, g t, cnt t)) l).map
        (fun kv => kv.2.2.1)).sum = (l.map g).sum := by
  have hm : (groupSum key (fun t => (f t, g t, cnt t)) l).map
        (fun kv => kv.2.2.1)
      = ((groupSum key (fun t => (f t, g t, cnt t)) l).map Prod.snd).map
          (fun x => x.2.1) := by
    rw [List.map_map]
    rfl
  rw [hm, sum_snd_fst_rat, groupSum_conservation, ← sum_snd_fst_rat,
    List.map_map]
  rfl

/-- C1: every trade record produced by the system, both by the internal
generator and by the broker-side corruption (which recomputes the field),
has principal equal to −(quantity·price+fees) when side = BUY and
+(quantity·price−fees) when side = SELL. -/
theorem c1_principal_formula (raw internal phantoms : List Trade)
    (perturb : Trade → Trade) (keep : Trade → Bool) (t : Trade)
    (h : t ∈ generateInternalTrades raw ∨
         t ∈ corruptBrokerData perturb keep phantoms internal) :
    (t.side = Side.BUY →
      t.principal = -(((t.quantity : ℚ) * t.price) + t.fees)) ∧
    (t.side = Side.SELL →
      t.principal = ((t.quantity : ℚ) * t.price) - t.fees) := by
  have hw : ∃ u, t = withPrincipal u := by
    rcases h with h | h
    · rcases List.mem_map.mp h with ⟨u, _, hu⟩
      exact ⟨u, hu.symm⟩
    · rcases List.mem_map.mp h with ⟨u, _, hu⟩
      exact ⟨u, hu.symm⟩
  rcases hw with ⟨u, ht⟩
  subst ht
  constructor
  · intro hside
    have hs : u.side = Side.BUY := hside
    simp [withPrincipal, computePrincipal, hs]
  · intro hside
    have hs : u.side = Side.SELL := hside
    simp [withPrincipal, computePrincipal, hs]

/-- Witness for C1 at the sample BUY trade. -/
theorem c1_principal_formula_witness :
    (withPrincipal sampleBuy ∈ generateInternalTrades [sampleBuy] ∨
      withPrincipal sampleBuy ∈
        corruptBrokerData id (fun _ => true) [] []) ∧
    (((withPrincipal sampleBuy).side = Side.BUY →
      (withPrincipal sampleBuy).principal
        = -((((withPrincipal sampleBuy).quantity : ℚ) *
              (withPrincipal sampleBuy).price) +
            (withPrincipal sampleBuy).fees)) ∧
     ((withPrincipal sampleBuy).side = Side.SELL →
      (withPrincipal sampleBuy).principal
        = (((withPrincipal sampleBuy).quantity : ℚ) *
              (withPrincipal sampleBuy).price) -
            (withPrincipal sampleBuy).fees)) :=
  ⟨Or.inl (List.mem_map_of_mem withPrincipal (by simp)),
   c1_principal_formula [sampleBuy] [] [] id (fun _ => true) _
     (Or.inl (List.mem_map_of_mem withPrincipal (by simp)))⟩

/-- C2: if any statement of a transactional write phase fails, the whole
unit rolls back: the store, and in particular the output table's rows for
the date, are left exactly as before the run. -/
theorem c2_rollback_atomic
    (stmts : List (List TradeBreak → Option (List TradeBreak)))
    (table : List TradeBreak) (d : String)
    (h : (runTransaction stmts table).2 = false) :
    (runTransaction stmts table).1 = table ∧
    ((runTransaction stmts table).1.filter (fun r => r.recon_date = d))
      = table.filter (fun r => r.recon_date = d) := by
  have hnone : applyStmts stmts table = none := by
    cases happ : applyStmts stmts table with
    | none => rfl
    | some s' =>
      exfalso
      unfold runTransaction at h
      rw [happ] at h
      simp at h
  unfold runTransaction
  rw [hnone]
  exact ⟨rfl, rfl⟩

/-- Witness for C2: a transaction whose single statement fails leaves the
empty prior table unchanged. -/
theorem c2_rollback_atomic_witness :
    ((runTransaction [fun _ => none] ([] : List TradeBreak)).2 = false) ∧
    (runTransaction [fun _ => none] ([] : List TradeBreak)).1 = [] ∧
    ((runTransaction [fun _ => none] ([] : List TradeBreak)).1.filter
        (fun r => r.recon_date = "2024-01-02"))
      = ([] : List TradeBreak).filter
          (fun r => r.recon_date = "2024-01-02") :=
  ⟨rfl, (c2_rollback_atomic [fun _ => none] [] "2024-01-02" rfl).1,
    (c2_rollback_atomic [fun _ => none] [] "2024-01-02" rfl).2⟩

/-- C3: running the Matching Engine twice for the same date on identical
internal and counterparty trade sets produces identical break-table
contents: the second replace-run reproduces the first run's table exactly. -/
theorem c3_matching_idempotent (band : ℚ → Severity) (tol : ℚ) (d : String)
    (internal broker : List Trade) (table : List TradeBreak) :
    matchingEngineRun band tol d internal broker
        (matchingEngineRun band tol d internal broker table)
      = matchingEngineRun band tol d internal broker table := by
  unfold matchingEngineRun
  rw [List.filter_append]
  have h1 : (computeTradeBreaks band tol d internal broker).filter
      (fun r => r.recon_date ≠ d) = [] := by
    apply List.filter_eq_nil_iff.mpr
    intro r hr
    simp [computeTradeBreaks_date band tol d internal broker r hr]
  have h2 : (table.filter (fun r => r.recon_date ≠ d)).filter
        (fun r => r.recon_date ≠ d)
      = table.filter (fun r => r.recon_date ≠ d) := by
    rw [List.filter_filter]
    apply List.filter_congr
    intro r _
    by_cases h : r.recon_date = d <;> simp [h]
  rw [h1, h2, List.append_nil]

/-- C4: global conservation of PnL: over the trades of a date, the sum of
net_pnl across all PnlRecord rows equals the sum of principal minus the sum
of fees, with net_pnl = realized_pnl − fees_total and realized_pnl the
per-group sum of principal. -/
theorem c4_pnl_conservation (d : String) (ts : List Trade) :
    ((calculatePnl d ts).map PnlRecord.net_pnl).sum
      = ((ts.filter (fun t => t.trade_date = d)).map Trade.principal).sum
        - ((ts.filter (fun t => t.trade_date = d)).map Trade.fees).sum := by
  have hnet : (calculatePnl d ts).map PnlRecord.net_pnl
      = (groupSum (fun t => (t.strategy, t.symbol, t.account))
          (fun t => (t.principal, t.fees, (1 : Nat)))
          (ts.filter (fun t => t.trade_date = d))).map
            (fun kv => kv.2.1 - kv.2.2.1) := by
    unfold calculatePnl
    rw [List.map_map]
    rfl
  rw [hnet, sum_map_sub_rat,
    groupSum_sum_fst (fun t : Trade => (t.strategy, t.symbol, t.account))
      Trade.principal Trade.fees (fun _ => 1)
      (ts.filter (fun t => t.trade_date = d)),
    groupSum_sum_snd (fun t : Trade => (t.strategy, t.symbol, t.account))
      Trade.principal Trade.fees (fun _ => 1)
      (ts.filter (fun t => t.trade_date = d))]

/-- C10: grouped aggregation conserves totals: the cash rows' balances sum
to the total principal of the input, and the position rows' net positions
sum to the total signed quantity of the input. -/
theorem c10_aggregation_conserves (ts : List Trade) (dt : String) :
    ((aggregateCash ts dt).map CashRow.net_cash_balance).sum
      = (ts.map Trade.principal).sum ∧
    ((aggregatePositions ts dt).map PositionRow.net_position).sum
      = (ts.map signedQty).sum := by
  constructor
  · have hm : (aggregateCash ts dt).map CashRow.net_cash_balance
        = (groupSum (fun t => (t.account, t.currency)) Trade.principal
            ts).map Prod.snd := by
      unfold aggregateCash
      rw [List.map_map]
      rfl
    rw [hm, groupSum_conservation]
  · have hm : (aggregatePositions ts dt).map PositionRow.net_position
        = (groupSum (fun t => (t.account, t.symbol)) signedQty ts).map
            Prod.snd := by
      unfold aggregatePositions
      rw [List.map_map]
      rfl
    rw [hm, groupSum_conservation]

/-- C5: the position aggregator emits exactly one row per (account, symbol)
group present in the trade set, whose net_position is the sum of the signed
quantities (+quantity for BUY, −quantity for SELL) over the group, and no
row for any absent group. -/
theorem c5_positions (ts : List Trade) (dt : String) :
    (∀ a s : String, (∃ t ∈ ts, t.account = a ∧ t.symbol = s) →
      (aggregatePositions ts dt).filter
          (fun r => r.account = a ∧ r.symbol = s)
        = [{ account := a, symbol := s,
             net_position := ((ts.filter
                 (fun t => t.account = a ∧ t.symbol = s)).map
               signedQty).sum,
             position_date := dt }]) ∧
    (∀ r ∈ aggregatePositions ts dt,
      ∃ t ∈ ts, t.account = r.account ∧ t.symbol = r.symbol) := by
  constructor
  · intro a s hpres
    have hpres' : ∃ t ∈ ts, (t.account, t.symbol) = (a, s) := by
      rcases hpres with ⟨t, ht, h1, h2⟩
      exact ⟨t, ht, by rw [h1, h2]⟩
    unfold aggregatePositions
    rw [List.filter_map]
    have hpred : ((fun r : PositionRow =>
          decide (r.account = a ∧ r.symbol = s)) ∘
        (fun kv : (String × String) × Int =>
          ({ account := kv.1.1, symbol := kv.1.2, net_position := kv.2,
             position_date := dt } : PositionRow)))
        = fun kv : (String × String) × Int => decide (kv.1 = (a, s)) := by
      funext kv
      simp only [Function.comp]
      exact decide_eq_decide.mpr (by
        constructor
        · rintro ⟨h1, h2⟩
          exact Prod.ext h1 h2
        · intro h
          exact ⟨congrArg Prod.fst h, congrArg Prod.snd h⟩)
    rw [hpred]
    rw [groupSum_filter_key (fun t : Trade => (t.account, t.symbol))
      signedQty ts (a, s) hpres']
    have hfilter : ts.filter (fun t : Trade => (t.account, t.symbol) = (a, s))
        = ts.filter (fun t => t.account = a ∧ t.symbol = s) := by
      apply List.filter_congr
      intro t _
      exact decide_eq_decide.mpr (by
        constructor
        · intro h
          exact ⟨congrArg Prod.fst h, congrArg Prod.snd h⟩
        · rintro ⟨h1, h2⟩
          exact Prod.ext h1 h2)
    rw [hfilter]
    rfl
  · intro r hr
    unfold aggregatePositions at hr
    rcases List.mem_map.mp hr with ⟨kv, hkv, hr'⟩
    rcases (groupSum_mem _ _ _ kv hkv).1 with ⟨t, ht, hkey⟩
    have h1 : kv.1 = (t.account, t.symbol) := hkey.symm
    refine ⟨t, ht, ?_, ?_⟩
    · rw [← hr', h1]
    · rw [← hr', h1]

/-- Witness for C5 at a one-trade set. -/
theorem c5_positions_witness :
    (∃ t ∈ [sampleBuy], t.account = "ACCT_MAIN" ∧ t.symbol = "AAPL") ∧
    (aggregatePositions [sampleBuy] "2024-01-02").filter
        (fun r => r.account = "ACCT_MAIN" ∧ r.symbol = "AAPL")
      = [{ account := "ACCT_MAIN", symbol := "AAPL",
           net_position := (([sampleBuy].filter
               (fun t => t.account = "ACCT_MAIN" ∧ t.symbol = "AAPL")).map
             signedQty).sum,
           position_date := "2024-01-02" }] :=
  ⟨⟨sampleBuy, by simp [sampleBuy]⟩,
   (c5_positions [sampleBuy] "2024-01-02").1 "ACCT_MAIN" "AAPL"
     ⟨sampleBuy, by simp [sampleBuy]⟩⟩

/-- C6: the cash aggregator emits exactly one row per (account, currency)
group present in the trade set, whose net_cash_balance is the sum of
principal over the group; no row for any absent group; and the output
depends only on the (account, currency, principal) columns of the input
trade set, with no other state. -/
theorem c6_cash (ts : List Trade) (dt : String) :
    (∀ a c : String, (∃ t ∈ ts, t.account = a ∧ t.currency = c) →
      (aggregateCash ts dt).filter
          (fun r => r.account = a ∧ r.currency = c)
        = [{ account := a, currency := c,
             net_cash_balance := ((ts.filter
                 (fun t => t.account = a ∧ t.currency = c)).map
               Trade.principal).sum,
             cash_date := dt }]) ∧
    (∀ r ∈ aggregateCash ts dt,
      ∃ t ∈ ts, t.account = r.account ∧ t.currency = r.currency) ∧
    (∀ ts₂ : List Trade,
      ts.map (fun t => (t.account, t.currency, t.principal))
        = ts₂.map (fun t => (t.account, t.currency, t.principal)) →
      aggregateCash ts dt = aggregateCash ts₂ dt) := by
  refine ⟨?_, ?_, ?_⟩
  · intro a c hpres
    have hpres' : ∃ t ∈ ts, (t.account, t.currency) = (a, c) := by
      rcases hpres with ⟨t, ht, h1, h2⟩
      exact ⟨t, ht, by rw [h1, h2]⟩
    unfold aggregateCash
    rw [List.filter_map]
    have hpred : ((fun r : CashRow =>
          decide (r.account = a ∧ r.currency = c)) ∘
        (fun kv : (String × String) × ℚ =>
          ({ account := kv.1.1, currency := kv.1.2,
             net_cash_balance := kv.2, cash_date := dt } : CashRow)))
        = fun kv : (String × String) × ℚ => decide (kv.1 = (a, c)) := by
      funext kv
      simp only [Function.comp]
      exact decide_eq_decide.mpr (by
        constructor
        · rintro ⟨h1, h2⟩
          exact Prod.ext h1 h2
        · intro h
          exact ⟨congrArg Prod.fst h, congrArg Prod.snd h⟩)
    rw [hpred]
    rw [groupSum_filter_key (fun t : Trade => (t.account, t.currency))
      Trade.principal ts (a, c) hpres']
    have hfilter : ts.filter
          (fun t : Trade => (t.account, t.currency) = (a, c))
        = ts.filter (fun t => t.account = a ∧ t.currency = c) := by
      apply List.filter_congr
      intro t _
      exact decide_eq_decide.mpr (by
        constructor
        · intro h
          exact ⟨congrArg Prod.fst h, congrArg Prod.snd h⟩
        · rintro ⟨h1, h2⟩
          exact Prod.ext h1 h2)
    rw [hfilter]
    rfl
  · intro r hr
    unfold aggregateCash at hr
    rcases List.mem_map.mp hr with ⟨kv, hkv, hr'⟩
    rcases (groupSum_mem _ _ _ kv hkv).1 with ⟨t, ht, hkey⟩
    have h1 : kv.1 = (t.account, t.currency) := hkey.symm
    refine ⟨t, ht, ?_, ?_⟩
    · rw [← hr', h1]
    · rw [← hr', h1]
  · intro ts₂ h
    unfold aggregateCash
    have hpairs : pairsOf (fun t : Trade => (t.account, t.currency))
          Trade.principal ts
        = pairsOf (fun t : Trade => (t.account, t.currency))
          Trade.principal ts₂ := by
      have hmap := congrArg
        (List.map (fun x : String × String × ℚ => ((x.1, x.2.1), x.2.2))) h
      rw [List.map_map, List.map_map] at hmap
      exact hmap
    rw [groupSum_eq_of_pairs _ _ _ _ ts ts₂ hpairs]

/-- Witness for C6 at a one-trade set. -/
theorem c6_cash_witness :
    (∃ t ∈ [sampleBuy], t.account = "ACCT_MAIN" ∧ t.currency = "USD") ∧
    (aggregateCash [sampleBuy] "2024-01-02").filter
        (fun r => r.account = "ACCT_MAIN" ∧ r.currency = "USD")
      = [{ account := "ACCT_MAIN", currency := "USD",
           net_cash_balance := (([sampleBuy].filter
               (fun t => t.account = "ACCT_MAIN" ∧ t.currency = "USD")).map
             Trade.principal).sum,
           cash_date := "2024-01-02" }] ∧
    aggregateCash [sampleBuy] "2024-01-02"
      = aggregateCash [sampleBuy] "2024-01-02" :=
  ⟨⟨sampleBuy, by simp [sampleBuy]⟩,
   (c6_cash [sampleBuy] "2024-01-02").1 "ACCT_MAIN" "USD"
     ⟨sampleBuy, by simp [sampleBuy]⟩,
   (c6_cash [sampleBuy] "2024-01-02").2.2 [sampleBuy] rfl⟩

/-- C9: the driver's controller appends exactly one audit row per run: a
FAILED row carrying the error message together with a non-zero exit signal
when the run fails, and a SUCCESS row carrying the break count together
with exit code zero when it succeeds. -/
theorem c9_audit_row (d : String) (result : Except String Nat)
    (audit : List PipelineRunRow) :
    ((reconMain d result audit).1.length = audit.length + 1) ∧
    (∀ e : String, result = Except.error e →
      (reconMain d result audit).1
        = audit ++ [{ run_date := d,
                      pipeline_name := "trade_reconciliation",
                      status := RunStatus.FAILED, breaks_found := 0,
                      error_message := some e }] ∧
      (reconMain d result audit).2 ≠ 0) ∧
    (∀ n : Nat, result = Except.ok n →
      (reconMain d result audit).1
        = audit ++ [{ run_date := d,
                      pipeline_name := "trade_reconciliation",
                      status := RunStatus.SUCCESS, breaks_found := n,
                      error_message := none }] ∧
      (reconMain d result audit).2 = 0) := by
  cases result with
  | ok n =>
    refine ⟨by simp [reconMain, logPipelineRun], ?_, ?_⟩
    · intro e he
      exact Except.noConfusion he
    · intro m hm
      have hnm : n = m := by
        injection hm
      subst hnm
      exact ⟨by simp [reconMain, logPipelineRun], rfl⟩
  | error e =>
    refine ⟨by simp [reconMain, logPipelineRun], ?_, ?_⟩
    · intro e' he'
      have hee : e = e' := by
        injection he'
      subst hee
      refine ⟨by simp [reconMain, logPipelineRun], ?_⟩
      simp [reconMain]
    · intro m hm
      exact Except.noConfusion hm

/-- Witness for C9 at a failing run. -/
theorem c9_audit_row_witness :
    (reconMain "2024-01-02" (Except.error "boom") []).1
      = [] ++ [{ run_date := "2024-01-02",
                 pipeline_name := "trade_reconciliation",
                 status := RunStatus.FAILED, breaks_found := 0,
                 error_message := some "boom" }] ∧
    (reconMain "2024-01-02" (Except.error "boom") []).2 ≠ 0 :=
  (c9_audit_row "2024-01-02" (Except.error "boom") []).2.1 "boom" rfl

/-- C7: for every trade_id present only internally, the Matching Engine
emits exactly one break carrying that trade_id; it is a
MISSING_AT_COUNTERPARTY break with notional_impact equal to the absolute
principal and severity at least HIGH, whatever the banding assigns. -/
theorem c7_missing_break (band : ℚ → Severity) (tol : ℚ) (d : String)
    (internal broker : List Trade) (t : Trade)
    (hnd : (internal.map Trade.trade_id).Nodup)
    (ht : t ∈ internal)
    (hb : t.trade_id ∉ broker.map Trade.trade_id) :
    (computeTradeBreaks band tol d internal broker).filter
        (fun r => r.trade_id = t.trade_id)
      = [mkMissingBreak band d t] ∧
    (mkMissingBreak band d t).break_type
      = BreakType.MISSING_AT_COUNTERPARTY ∧
    (mkMissingBreak band d t).notional_impact = |t.principal| ∧
    sevLE Severity.HIGH (mkMissingBreak band d t).severity := by
  have hndl : internal.Nodup := List.Nodup.of_map _ hnd
  have hnotb : ∀ b ∈ broker, ¬ b.trade_id = t.trade_id := by
    intro b hbm heq
    exact hb (heq ▸ List.mem_map_of_mem Trade.trade_id hbm)
  have hinj := List.inj_on_of_nodup_map hnd
  refine ⟨?_, rfl, rfl, sevLE_high_floor _⟩
  unfold computeTradeBreaks
  rw [List.filter_append, List.filter_append]
  have hA : ((internal.filter (fun u => ! hasId broker u.trade_id)).map
        (mkMissingBreak band d)).filter
          (fun r => r.trade_id = t.trade_id)
      = [mkMissingBreak band d t] := by
    rw [List.filter_map]
    have hpred : ((fun r : TradeBreak =>
          decide (r.trade_id = t.trade_id)) ∘ mkMissingBreak band d)
        = fun u : Trade => decide (u.trade_id = t.trade_id) := rfl
    rw [hpred, List.filter_filter]
    rw [filter_eq_singleton_of_nodup hndl ht ?pt ?uniq]
    case _ => rfl
    case pt =>
      have hhas : hasId broker t.trade_id = false := by
        simp only [hasId, List.any_eq_false]
        intro b hbm
        simpa using hnotb b hbm
      simp [hhas]
    case uniq =>
      intro u hu hpu
      have h1 : u.trade_id = t.trade_id := by
        rcases Bool.and_eq_true_iff.mp hpu with ⟨ha, hb'⟩
        simp only [decide_eq_true_eq] at ha hb'
        exact ha
      exact hinj hu ht h1
  have hB : ((broker.filter (fun u => ! hasId internal u.trade_id)).map
        (mkPhantomBreak band d)).filter
          (fun r => r.trade_id = t.trade_id) = [] := by
    apply List.filter_eq_nil_iff.mpr
    intro r hr
    rcases List.mem_map.mp hr with ⟨u, hu, hru⟩
    have hum : u ∈ broker := List.mem_of_mem_filter hu
    have hrid : r.trade_id = u.trade_id := by
      rw [← hru]
      rfl
    simp only [hrid, decide_eq_true_eq]
    exact hnotb u hum
  have hC : ((internal.flatMap (fun u =>
        match findById broker u.trade_id with
        | some b => pairBreaks band tol d u b
        | none => [])).filter
          (fun r => r.trade_id = t.trade_id)) = [] := by
    apply List.filter_eq_nil_iff.mpr
    intro r hr
    rcases List.mem_flatMap.mp hr with ⟨u, hu, hru⟩
    cases hfind : findById broker u.trade_id with
    | none =>
      rw [hfind] at hru
      cases hru
    | some b =>
      rw [hfind] at hru
      have hrid : r.trade_id = u.trade_id :=
        pairBreaks_id band tol d u b r hru
      simp only [hrid, decide_eq_true_eq]
      intro hut
      have hbmem : b ∈ broker := List.mem_of_find?_eq_some hfind
      have hbid : b.trade_id = u.trade_id := by
        have hfs := List.find?_some hfind
        simpa using hfs
      exact hnotb b hbmem (hbid.trans hut)
  rw [hA, hB, hC, List.append_nil, List.append_nil]

/-- Witness for C7: one internal trade, empty counterparty set. -/
theorem c7_missing_break_witness :
    (([sampleBuy].map Trade.trade_id).Nodup ∧ sampleBuy ∈ [sampleBuy] ∧
      sampleBuy.trade_id ∉ ([] : List Trade).map Trade.trade_id) ∧
    ((computeTradeBreaks defaultSeverityBand (1 / 1000) "2024-01-02"
        [sampleBuy] []).filter
          (fun r => r.trade_id = sampleBuy.trade_id)
      = [mkMissingBreak defaultSeverityBand "2024-01-02" sampleBuy] ∧
    (mkMissingBreak defaultSeverityBand "2024-01-02" sampleBuy).break_type
      = BreakType.MISSING_AT_COUNTERPARTY ∧
    (mkMissingBreak defaultSeverityBand "2024-01-02"
        sampleBuy).notional_impact = |sampleBuy.principal| ∧
    sevLE Severity.HIGH
      (mkMissingBreak defaultSeverityBand "2024-01-02"
        sampleBuy).severity) :=
  ⟨⟨by simp, by simp, by simp⟩,
   c7_missing_break defaultSeverityBand (1 / 1000) "2024-01-02"
     [sampleBuy] [] sampleBuy (by simp) (by simp) (by simp)⟩

/-- C8 as stated is false on the code: with quantity positive, price ≥ 0
and fees ≥ 0 the principal of a SELL can be negative (quantity 1, price 0,
fees 1 gives principal −1), so the sign is not determined solely by side. -/
theorem c8_sign_counterexample :
    ¬ (∀ (side : Side) (q : Int) (p f : ℚ), 0 < q → 0 ≤ p → 0 ≤ f →
        ((side = Side.BUY → computePrincipal side q p f < 0) ∧
         (side = Side.SELL → 0 < computePrincipal side q p f))) := by
  intro h
  have hc := (h Side.SELL 1 0 1 (by norm_num) le_rfl (by norm_num)).2 rfl
  norm_num [computePrincipal] at hc

/-- C8 amended: when additionally fees < quantity·price (true of all
generated data, where price ≥ 50, quantity ≥ 10 and fees < 15), the sign
of principal is determined solely by side: negative for BUY, positive for
SELL. -/
theorem c8_sign_amended (side : Side) (q : Int) (p f : ℚ)
    (hq : 0 < q) (hp : 0 ≤ p) (hf : 0 ≤ f) (hlt : f < (q : ℚ) * p) :
    (side = Side.BUY → computePrincipal side q p f < 0) ∧
    (side = Side.SELL → 0 < computePrincipal side q p f) := by
  have hqp : 0 < (q : ℚ) * p := lt_of_le_of_lt hf hlt
  constructor
  · intro hs
    have hcp : computePrincipal Side.BUY q p f
        = -1 * (((q : ℚ) * p) + f) := by
      simp [computePrincipal]
    rw [hs, hcp]
    linarith
  · intro hs
    have hcp : computePrincipal Side.SELL q p f = ((q : ℚ) * p) - f := by
      simp [computePrincipal]
    rw [hs, hcp]
    linarith

/-- Witness for the amended C8 at a concrete SELL trade. -/
theorem c8_sign_amended_witness :
    (0 < (1 : Int) ∧ (0 : ℚ) ≤ 2 ∧ (0 : ℚ) ≤ 1 ∧
      (1 : ℚ) < ((1 : Int) : ℚ) * 2) ∧
    ((Side.SELL = Side.BUY → computePrincipal Side.SELL 1 2 1 < 0) ∧
     (Side.SELL = Side.SELL → 0 < computePrincipal Side.SELL 1 2 1)) :=
  ⟨⟨by norm_num, by norm_num, by norm_num, by norm_num⟩,
   c8_sign_amended Side.SELL 1 2 1 (by norm_num) (by norm_num)
     (by norm_num) (by norm_num)⟩
